import Mathlib

/-!
Verification of the A* sliding-puzzle solver (`8-puzzle/main.py`).

The Python module is shallowly embedded: configurations (`State`) are lists of
rows of characters, the frontier is a list of search nodes kept sorted by a
stable sort (Python's `list.sort()` is stable and uses the `__lt__` on `f`),
the visited set (`HistoryMap`) is the list of configuration keys, and the
search driver `go` is a fuelled loop whose `none` result means "ran out of
fuel" and whose `some (Except.error ())` result models the exception raised
when no empty tile exists.
-/

set_option maxRecDepth 4000

/-- Dimension of the board (the Python constant `DIMENSION = 3`). -/
def DIMENSION : Nat := 3

/-- Representation of the empty tile (the Python constant `EMPTY = "0"`). -/
def EMPTY : Char := '0'

/-- Coordinate of a tile; `(0, 0)` is the upper-left corner. -/
abbrev Point : Type := Nat × Nat

/-- State of the board: a matrix of single-character labels. -/
abbrev State : Type := List (List Char)

/-- Debug start state from the source. -/
def DEBUG_START_STATE : State := [['2', '1', '3'], [EMPTY, '8', '4'], ['6', '7', '5']]

/-- Debug target state from the source. -/
def DEBUG_TARGET_STATE : State := [['1', '2', '3'], ['8', EMPTY, '4'], ['7', '6', '5']]

/-- Read a cell of the board (`state[i][j]`); the default is irrelevant since
all uses are guarded by bounds facts. -/
def cell (s : State) (p : Point) : Char := (s.getD p.1 []).getD p.2 EMPTY

/-- Write a cell of the board (`state[i][j] = v`). -/
def setCell (s : State) (p : Point) (v : Char) : State :=
  s.set p.1 ((s.getD p.1 []).set p.2 v)

/-- A well-formed board: `DIMENSION` rows of `DIMENSION` labels. -/
def Shape (s : State) : Prop :=
  s.length = DIMENSION ∧ ∀ r ∈ s, r.length = DIMENSION

instance : DecidablePred Shape := fun s => by
  unfold Shape; infer_instance

/-- `Node.__find_empty`, inner loop over one row: index of the first cell
holding the empty label. -/
def findEmptyInRow : Nat → List Char → Option Nat
  | _, [] => none
  | j, tile :: rest => if tile = EMPTY then some j else findEmptyInRow (j + 1) rest

/-- `Node.__find_empty`, outer loop: row-major scan for the empty tile. -/
def find_empty_from : Nat → State → Option Point
  | _, [] => none
  | i, row :: rest =>
    match findEmptyInRow 0 row with
    | some j => some (i, j)
    | none => find_empty_from (i + 1) rest

/-- `Node.__find_empty`: coordinates of the empty tile, scanning row-major;
`none` models the raised `Exception("Empty tile is not found")`. -/
def find_empty (s : State) : Option Point := find_empty_from 0 s

/-- `Node.__get_next_empties`: the four candidate coordinates
(down, up, right, left in this order) filtered to the board. The candidates
are built with integer arithmetic exactly as in the source, where
`current_empty[0] - 1` may be negative and is then filtered out. -/
def get_next_empties (p : Point) : List Point :=
  (([((p.1 : Int) + 1, (p.2 : Int)),
     ((p.1 : Int) - 1, (p.2 : Int)),
     ((p.1 : Int), (p.2 : Int) + 1),
     ((p.1 : Int), (p.2 : Int) - 1)] : List (Int × Int)).filter
    (fun q => decide (0 ≤ q.1) && decide (q.1 ≤ (DIMENSION : Int) - 1) &&
              decide (0 ≤ q.2) && decide (q.2 ≤ (DIMENSION : Int) - 1))).map
    (fun q => (q.1.toNat, q.2.toNat))

/-- `Node.__get_next_state`: the next state after the empty tile has moved;
a deep copy with the labels at `current_empty` and `next_empty` exchanged
(the Python tuple assignment evaluates both right-hand sides first). -/
def get_next_state (s : State) (current_empty next_empty : Point) : State :=
  setCell (setCell s next_empty (cell s current_empty)) current_empty (cell s next_empty)

/-- The row-major list of all board positions, mirroring the nested
`for i in range(DIMENSION): for j in range(DIMENSION)` loops. -/
def positions : List Point :=
  (List.range DIMENSION).flatMap (fun i => (List.range DIMENSION).map (fun j => (i, j)))

/-- `Node.__get_h`: number of cells whose target label is neither the current
label nor the empty label (`target[i][j] not in (state[i][j], EMPTY)`). -/
def get_h (s t : State) : Nat :=
  positions.countP (fun p => decide (cell t p ≠ cell s p ∧ cell t p ≠ EMPTY))

/-- `Node.is_target`: the goal test compares the heuristic value with 0. -/
def is_target (s t : State) : Bool := get_h s t == 0

/-- `Node.__repr__`: the concatenation of all grid cells, used as the key of
the history map. -/
def reprKey (s : State) : List Char := s.flatten

/-- An A* tree node: its configuration and its depth `g`.  In the source `g`
is 0 for the root and `parent.__g + 1` for a child, and `h`/`f` are computed
from the state and the fixed target, so a node is determined by this data. -/
structure SNode where
  state : State
  g : Nat
deriving DecidableEq

/-- `Node.f = g + h`: the A* priority of a node (immutable after creation). -/
def fval (t : State) (n : SNode) : Nat := n.g + get_h n.state t

/-- `Node.create_children`, given the already-located empty position: one
child per legal move, each with `g = parent.g + 1`. -/
def create_children (n : SNode) (e : Point) : List SNode :=
  (get_next_empties e).map (fun ne => ⟨get_next_state n.state e ne, n.g + 1⟩)

/-- The ordering induced by `Node.__lt__` and `Node.__gt__`: comparison of
the `f`-values. -/
def leF {α : Type} (f : α → Nat) : α → α → Prop := fun a b => f a ≤ f b

/-- Decidability of the `f`-value comparison. -/
def leFDec {α : Type} (f : α → Nat) : DecidableRel (leF f) :=
  fun a b => Nat.decLe (f a) (f b)

/-- `CandidateQueue.push`: extend the backing list and re-sort it.  Python's
`list.sort()` is a stable ascending sort driven by `Node.__lt__` (comparison
of `f`); a stable sort by the key `f` is exactly insertion sort with `≤`. -/
def CandidateQueue.push {α : Type} (f : α → Nat) (q new : List α) : List α :=
  @List.insertionSort α (leF f) (leFDec f) (q ++ new)

/-- `CandidateQueue.pop`: remove and return the front of the queue
(`self.__queue.pop(0)`); `none` when the queue is empty. -/
def CandidateQueue.pop {α : Type} : List α → Option (α × List α)
  | [] => none
  | a :: rest => some (a, rest)

/-- The search loop of `go`, fuelled.  `none` means the fuel ran out (the
Python loop has no such case; termination is proved separately), `some
(Except.error ())` models the exception escaping from `create_children`,
and `some (Except.ok k)` is the returned integer. -/
def goLoop (t : State) : Nat → List SNode → List (List Char) → Option (Except Unit Int)
  | 0, _, _ => none
  | _ + 1, [], _ => some (Except.ok (-1))
  | fuel + 1, c :: rest, hist =>
    if is_target c.state t then some (Except.ok ((fval t c : Nat) : Int))
    else if reprKey c.state ∈ hist then goLoop t fuel rest hist
    else
      match find_empty c.state with
      | none => some (Except.error ())
      | some e =>
        goLoop t fuel (CandidateQueue.push (fval t) rest (create_children c e))
          (reprKey c.state :: hist)

/-- `go`: solve the puzzle.  The candidate queue starts as the singleton root
node (with `g = 0`) and the history map starts empty. -/
def go (start_state target_state : State) (fuel : Nat) : Option (Except Unit Int) :=
  goLoop target_state fuel [⟨start_state, 0⟩] []

/-! ### Specification-side definitions -/

/-- Per the spec (§4.1): the up/down/left/right neighbours of `pos` that lie
within `[0, D-1] × [0, D-1]`, in the fixed enumeration order down, up,
right, left. -/
def specCandidateMoves (p : Point) : List Point :=
  (if p.1 + 1 ≤ DIMENSION - 1 then [(p.1 + 1, p.2)] else []) ++
  (if 1 ≤ p.1 then [(p.1 - 1, p.2)] else []) ++
  (if p.2 + 1 ≤ DIMENSION - 1 then [(p.1, p.2 + 1)] else []) ++
  (if 1 ≤ p.2 then [(p.1, p.2 - 1)] else [])

/-- Per the spec (§4.2): count of cells `(i,j)` where `target[i][j]` is not
the empty label and `config[i][j] != target[i][j]`. -/
def spec_h (s t : State) : Nat :=
  positions.countP (fun p => decide (cell t p ≠ EMPTY ∧ cell s p ≠ cell t p))

/-- The states reachable from `x` by one legal tile slide (the move graph
generated by the code's move generator). -/
def nextStates (x : State) : List State :=
  match find_empty x with
  | none => []
  | some e => (get_next_empties e).map (get_next_state x e)

/-- `reachN n x y`: `y` is reachable from `x` in exactly `n` single-tile
moves of the move graph. -/
def reachN : Nat → State → State → Bool
  | 0, x, y => x == y
  | n + 1, x, y => (nextStates x).any (fun z => reachN n z y)

/-- `y` is reachable from `x` in the move graph. -/
def Reach (x y : State) : Prop := ∃ n, reachN n x y = true

/-- The shortest-path distance in the move graph (0 for unreachable pairs;
only ever used under a reachability hypothesis). -/
noncomputable def sdist (x y : State) : Nat :=
  @dite Nat (∃ n, reachN n x y = true) (Classical.dec _)
    (fun h => @Nat.find (fun n => reachN n x y = true) (fun _ => Bool.decEq _ _) h)
    (fun _ => 0)

/-- Ghost numbering of pushed nodes: tag a batch with consecutive insertion
indices starting at `n`. -/
def tagFrom {α : Type} : Nat → List α → List (Nat × α)
  | _, [] => []
  | n, a :: rest => (n, a) :: tagFrom (n + 1) rest

/-- The queue contents reachable by some sequence of push and pop operations
on an initially empty `CandidateQueue`, with every pushed node tagged by its
insertion index (the second component of the pair counts insertions so far). -/
inductive CQReach {α : Type} (f : α → Nat) : List (Nat × α) → Nat → Prop
  | init : CQReach f [] 0
  | push (q : List (Nat × α)) (n : Nat) (batch : List α) :
      CQReach f q n →
      CQReach f (CandidateQueue.push (fun p => f p.2) q (tagFrom n batch))
        (n + batch.length)
  | pop (x : Nat × α) (q : List (Nat × α)) (n : Nat) :
      CQReach f (x :: q) n → CQReach f q n

/-- The (queue, visited-keys) pairs arising during a single run of `go`,
mirroring the three ways the loop body can continue. -/
inductive GoReach (s t : State) : List SNode → List (List Char) → Prop
  | init : GoReach s t [⟨s, 0⟩] []
  | discard (c : SNode) (rest : List SNode) (V : List (List Char)) :
      GoReach s t (c :: rest) V → is_target c.state t = false →
      reprKey c.state ∈ V → GoReach s t rest V
  | expand (c : SNode) (rest : List SNode) (V : List (List Char)) (e : Point) :
      GoReach s t (c :: rest) V → is_target c.state t = false →
      reprKey c.state ∉ V → find_empty c.state = some e →
      GoReach s t (CandidateQueue.push (fval t) rest (create_children c e))
        (reprKey c.state :: V)

/-- All lists of length `n` over elements of `S` (used to bound the size of
the visited set). -/
def allLists : Nat → List Char → List (List Char)
  | 0, _ => [[]]
  | n + 1, S => S.flatMap (fun c => (allLists n S).map (c :: ·))

/-- A start configuration whose reachable component is tiny (all tiles carry
the same label), used to exercise a full frontier-exhausting run. -/
def EXH_START : State := [[EMPTY, '1', '1'], ['1', '1', '1'], ['1', '1', '1']]

/-- A target that no configuration reachable from `EXH_START` matches (the
label `2` never occurs there), so the search exhausts its frontier. -/
def EXH_TARGET : State := [['2', '1', '1'], ['1', '1', '1'], ['1', '1', '1']]

/-- Search invariant used for the termination argument: queue states are
well-formed permutations of the start configuration, visited keys are length-9
strings over the start's labels, and no key repeats. -/
structure Inv6 (s : State) (q : List SNode) (V : List (List Char)) : Prop where
  hq : ∀ n ∈ q, Shape n.state ∧ n.state.flatten.Perm s.flatten
  hV : ∀ k ∈ V, k.length = 9 ∧ ∀ c ∈ k, c ∈ s.flatten
  hnd : V.Nodup

/-- The A* correctness invariant, relating the queue and visited set of the
search loop at every iteration:
queue nodes carry genuine path lengths (`qstate`), visited keys are keys of
reachable configurations (`vkeys`) and never repeat (`vnd`) and never include
the target (`vtarget`), the queue is sorted by `f` (`sorted`), every reachable
not-yet-visited configuration has an optimally-reached queue node on one of
its shortest paths (`frontier`), and every expanded configuration has all its
successors visited or queued with a near-optimal `g` (`closure`). -/
structure AInv (s t : State) (q : List SNode) (V : List (List Char)) : Prop where
  qstate : ∀ n ∈ q, Shape n.state ∧ n.state.flatten.Perm s.flatten ∧
    reachN n.g s n.state = true
  vkeys : ∀ k ∈ V, ∃ x, Shape x ∧ k = x.flatten ∧ Reach s x
  vnd : V.Nodup
  vtarget : ∀ k ∈ V, k ≠ t.flatten
  sorted : List.Sorted (leF (fval t)) q
  frontier : ∀ y, Reach s y → y.flatten ∉ V →
    ∃ n ∈ q, n.state.flatten ∉ V ∧ Reach n.state y ∧ n.g = sdist s n.state ∧
      sdist s y = n.g + sdist n.state y
  closure : ∀ x, Shape x → x.flatten ∈ V → ∀ z, z ∈ nextStates x →
    z.flatten ∈ V ∨ ∃ m ∈ q, m.state = z ∧ m.g ≤ sdist s x + 1

/-- Fuel bound for the search loop: one unit per queue entry plus five units
per configuration that can still be added to the visited set. -/
def goMeasure (s : State) (q : List SNode) (V : List (List Char)) : Nat :=
  q.length + 5 * ((allLists 9 s.flatten).length - V.length) + 1

/-! ### Primitive list lemmas -/

theorem getD_set_self {α : Type} :
    ∀ (l : List α) (i : Nat) (v d : α), i < l.length → (l.set i v).getD i d = v := by
  intro l
  induction l with
  | nil => intro i v d h; simp at h
  | cons a t ih =>
    intro i v d h
    cases i with
    | zero => simp
    | succ i => simpa using ih i v d (by simpa using h)

theorem getD_set_ne {α : Type} :
    ∀ (l : List α) (i j : Nat) (v d : α), i ≠ j → (l.set i v).getD j d = l.getD j d := by
  intro l
  induction l with
  | nil => intro i j v d _; simp
  | cons a t ih =>
    intro i j v d hne
    cases i with
    | zero =>
      cases j with
      | zero => exact absurd rfl hne
      | succ j => simp
    | succ i =>
      cases j with
      | zero => simp
      | succ j => simpa using ih i j v d (by omega)

theorem getD_mem {α : Type} :
    ∀ (l : List α) (i : Nat) (d : α), i < l.length → l.getD i d ∈ l := by
  intro l
  induction l with
  | nil => intro i d h; simp at h
  | cons a t ih =>
    intro i d h
    cases i with
    | zero => simp
    | succ i => simpa using Or.inr (ih i d (by simpa using h))

theorem count_set_char :
    ∀ (l : List Char) (j : Nat) (v a : Char), j < l.length →
      (l.set j v).count a + (if l.getD j EMPTY = a then 1 else 0) =
        l.count a + (if v = a then 1 else 0) := by
  intro l
  induction l with
  | nil => intro j v a h; simp at h
  | cons b t ih =>
    intro j v a h
    cases j with
    | zero =>
      simp only [List.set, List.getD_cons_zero, List.count_cons, beq_iff_eq]
      split_ifs <;> omega
    | succ j =>
      have := ih j v a (by simpa using h)
      simp only [List.set, List.getD_cons_succ, List.count_cons, beq_iff_eq]
      split_ifs at * <;> omega

theorem count_flatten_set :
    ∀ (s : State) (i : Nat) (r' : List Char) (a : Char), i < s.length →
      ((s.set i r').flatten).count a + (s.getD i []).count a =
        s.flatten.count a + r'.count a := by
  intro s
  induction s with
  | nil => intro i r' a h; simp at h
  | cons row t ih =>
    intro i r' a h
    cases i with
    | zero => simp [List.count_append]; omega
    | succ i =>
      have := ih i r' a (by simpa using h)
      simp only [List.set, List.getD_cons_succ, List.flatten_cons, List.count_append]
      omega

/-! ### Cell-level lemmas about `setCell` and `get_next_state` -/

theorem length_setCell (s : State) (p : Point) (v : Char) :
    (setCell s p v).length = s.length := by
  simp [setCell]

theorem rowlen_setCell (s : State) (p : Point) (v : Char) (i : Nat) :
    ((setCell s p v).getD i []).length = (s.getD i []).length := by
  unfold setCell
  by_cases hps : p.1 < s.length
  · by_cases hip : p.1 = i
    · subst hip
      rw [getD_set_self _ _ _ _ hps]
      simp
    · rw [getD_set_ne _ _ _ _ _ hip]
  · rw [List.set_eq_of_length_le (by omega)]

theorem cell_setCell_self (s : State) (p : Point) (v : Char)
    (h1 : p.1 < s.length) (h2 : p.2 < (s.getD p.1 []).length) :
    cell (setCell s p v) p = v := by
  unfold cell setCell
  rw [getD_set_self _ _ _ _ h1, getD_set_self _ _ _ _ h2]

theorem cell_setCell_ne (s : State) (p q : Point) (v : Char)
    (hne : q ≠ p) : cell (setCell s p v) q = cell s q := by
  unfold cell setCell
  by_cases hps : p.1 < s.length
  · by_cases hrow : p.1 = q.1
    · have hcol : q.2 ≠ p.2 := by
        intro hc
        exact hne (Prod.ext (hrow.symm) hc)
      rw [← hrow, getD_set_self _ _ _ _ hps, getD_set_ne _ _ _ _ _ (by omega)]
    · rw [getD_set_ne _ _ _ _ _ hrow]
  · rw [List.set_eq_of_length_le (by omega)]

theorem shape_setCell (s : State) (p : Point) (v : Char) (h : Shape s) :
    Shape (setCell s p v) := by
  obtain ⟨hlen, hrows⟩ := h
  by_cases hps : p.1 < s.length
  · refine ⟨by simpa [setCell] using hlen, ?_⟩
    intro r hr
    rcases List.mem_or_eq_of_mem_set hr with hmem | heq
    · exact hrows r hmem
    · subst heq
      have hmem : (s.getD p.1 []) ∈ s := getD_mem _ _ _ hps
      simpa using hrows _ hmem
  · unfold setCell
    rw [List.set_eq_of_length_le (by omega)]
    exact ⟨hlen, hrows⟩

theorem count_setCell (s : State) (p : Point) (v a : Char)
    (h1 : p.1 < s.length) (h2 : p.2 < (s.getD p.1 []).length) :
    ((setCell s p v).flatten).count a + (if cell s p = a then 1 else 0) =
      s.flatten.count a + (if v = a then 1 else 0) := by
  have h3 := count_flatten_set s p.1 ((s.getD p.1 []).set p.2 v) a h1
  have h4 := count_set_char (s.getD p.1 []) p.2 v a h2
  unfold cell
  unfold setCell
  split_ifs at * <;> omega

theorem flatten_get_next_state_perm (s : State) (pc pn : Point)
    (h1c : pc.1 < s.length) (h2c : pc.2 < (s.getD pc.1 []).length)
    (h1n : pn.1 < s.length) (h2n : pn.2 < (s.getD pn.1 []).length) :
    ((get_next_state s pc pn).flatten).Perm s.flatten := by
  rw [List.perm_iff_count]
  intro a
  have step1 := count_setCell s pn (cell s pc) a h1n h2n
  have hmid1 : (setCell s pn (cell s pc)).length = s.length := length_setCell _ _ _
  have hmid2 : ((setCell s pn (cell s pc)).getD pc.1 []).length = (s.getD pc.1 []).length :=
    rowlen_setCell _ _ _ _
  have step2 := count_setCell (setCell s pn (cell s pc)) pc (cell s pn) a
    (by omega) (by omega)
  have hcellmid : cell (setCell s pn (cell s pc)) pc = cell s pc := by
    by_cases hpq : pc = pn
    · rw [hpq]
      exact cell_setCell_self _ _ _ h1n h2n
    · exact cell_setCell_ne _ _ _ _ hpq
  rw [hcellmid] at step2
  unfold get_next_state
  split_ifs at * <;> omega

/-! ### `find_empty` lemmas -/

theorem findEmptyInRow_none_iff :
    ∀ (row : List Char) (j0 : Nat), findEmptyInRow j0 row = none ↔ EMPTY ∉ row := by
  intro row
  induction row with
  | nil => intro j0; simp [findEmptyInRow]
  | cons tile rest ih =>
    intro j0
    by_cases h : tile = EMPTY
    · simp [findEmptyInRow, h]
    · simp only [findEmptyInRow, if_neg h, List.mem_cons]
      rw [ih (j0 + 1)]
      constructor
      · rintro hn (he | he)
        · exact h he.symm
        · exact hn he
      · intro hn he
        exact hn (Or.inr he)

theorem findEmptyInRow_some_spec :
    ∀ (row : List Char) (j0 j : Nat), findEmptyInRow j0 row = some j →
      j0 ≤ j ∧ (j - j0) < row.length ∧ row.getD (j - j0) EMPTY = EMPTY ∧
        ∀ m, m < j - j0 → row.getD m EMPTY ≠ EMPTY := by
  intro row
  induction row with
  | nil => intro j0 j h; simp [findEmptyInRow] at h
  | cons tile rest ih =>
    intro j0 j h
    by_cases ht : tile = EMPTY
    · simp [findEmptyInRow, ht] at h
      subst h
      refine ⟨le_refl _, by simp, by simpa using ht, ?_⟩
      intro m hm
      omega
    · simp only [findEmptyInRow, if_neg ht] at h
      obtain ⟨hle, hlen, hget, hfirst⟩ := ih (j0 + 1) j h
      refine ⟨by omega, by simp; omega, ?_, ?_⟩
      · have : j - j0 = (j - (j0 + 1)) + 1 := by omega
        rw [this, List.getD_cons_succ]
        exact hget
      · intro m hm
        cases m with
        | zero => simpa using ht
        | succ m =>
          rw [List.getD_cons_succ]
          exact hfirst m (by omega)

theorem find_empty_from_none_iff :
    ∀ (s : State) (i0 : Nat), find_empty_from i0 s = none ↔ ∀ row ∈ s, EMPTY ∉ row := by
  intro s
  induction s with
  | nil => intro i0; simp [find_empty_from]
  | cons row rest ih =>
    intro i0
    rcases hr : findEmptyInRow 0 row with _ | j
    · simp only [find_empty_from, hr]
      rw [ih (i0 + 1)]
      have hrow : EMPTY ∉ row := (findEmptyInRow_none_iff row 0).mp hr
      constructor
      · intro hall r hmem
        rcases List.mem_cons.mp hmem with he | he
        · subst he; exact hrow
        · exact hall r he
      · intro hall r hmem
        exact hall r (List.mem_cons_of_mem _ hmem)
    · simp only [find_empty_from, hr]
      constructor
      · intro h; cases h
      · intro hall
        have hrow : EMPTY ∉ row := hall row (List.mem_cons_self _ _)
        have := (findEmptyInRow_none_iff row 0).mpr hrow
        rw [this] at hr
        cases hr

theorem find_empty_from_some_spec :
    ∀ (s : State) (i0 i j : Nat), find_empty_from i0 s = some (i, j) →
      i0 ≤ i ∧ (i - i0) < s.length ∧ findEmptyInRow 0 (s.getD (i - i0) []) = some j ∧
        ∀ m, m < i - i0 → EMPTY ∉ s.getD m [] := by
  intro s
  induction s with
  | nil => intro i0 i j h; simp [find_empty_from] at h
  | cons row rest ih =>
    intro i0 i j h
    rcases hr : findEmptyInRow 0 row with _ | j'
    · rw [find_empty_from, hr] at h
      obtain ⟨hle, hlen, hrow, hfirst⟩ := ih (i0 + 1) i j h
      refine ⟨by omega, by simp; omega, ?_, ?_⟩
      · have : i - i0 = (i - (i0 + 1)) + 1 := by omega
        rw [this, List.getD_cons_succ]
        exact hrow
      · intro m hm
        cases m with
        | zero =>
          rw [List.getD_cons_zero]
          exact (findEmptyInRow_none_iff row 0).mp hr
        | succ m =>
          rw [List.getD_cons_succ]
          exact hfirst m (by omega)
    · rw [find_empty_from, hr] at h
      injection h with h'
      injection h' with h1 h2
      subst h1; subst h2
      refine ⟨le_refl _, by simp, ?_, ?_⟩
      · simpa using hr
      · intro m hm; omega

theorem find_empty_some_spec (s : State) (i j : Nat) (h : find_empty s = some (i, j)) :
    i < s.length ∧ j < (s.getD i []).length ∧ cell s (i, j) = EMPTY ∧
      (∀ m, m < j → (s.getD i []).getD m EMPTY ≠ EMPTY) ∧
      (∀ m, m < i → EMPTY ∉ s.getD m []) := by
  obtain ⟨_, hlen, hrow, hfirst⟩ := find_empty_from_some_spec s 0 i j h
  simp only [Nat.sub_zero] at hlen hrow
  obtain ⟨_, hjlen, hget, hjfirst⟩ := findEmptyInRow_some_spec _ 0 j hrow
  simp only [Nat.sub_zero] at hjlen hget hjfirst
  exact ⟨hlen, hjlen, hget, hjfirst, fun m hm => by simpa using hfirst m (by omega)⟩

theorem find_empty_none_iff (s : State) :
    find_empty s = none ↔ ∀ row ∈ s, EMPTY ∉ row := find_empty_from_none_iff s 0

theorem find_empty_isSome_of_mem (s : State) (h : EMPTY ∈ s.flatten) :
    ∃ p, find_empty s = some p := by
  rcases hf : find_empty s with _ | p
  · rw [find_empty_none_iff] at hf
    obtain ⟨row, hrow, hmem⟩ := List.mem_flatten.mp h
    exact absurd hmem (hf row hrow)
  · exact ⟨p, rfl⟩

/-! ### `get_next_empties` lemmas -/

theorem mem_get_next_empties (p q : Point) (h : q ∈ get_next_empties p) :
    q.1 < DIMENSION ∧ q.2 < DIMENSION ∧ q ≠ p ∧
      ((q.1 = p.1 + 1 ∧ q.2 = p.2) ∨ (q.1 + 1 = p.1 ∧ q.2 = p.2) ∨
       (q.1 = p.1 ∧ q.2 = p.2 + 1) ∨ (q.1 = p.1 ∧ q.2 + 1 = p.2)) := by
  unfold get_next_empties DIMENSION at h
  simp only [List.mem_map, List.mem_filter, List.mem_cons, List.not_mem_nil, or_false,
    Bool.and_eq_true, decide_eq_true_eq] at h
  obtain ⟨c, ⟨hc, hbound⟩, hq⟩ := h
  have hq1 : q.1 = c.1.toNat := by rw [← hq]
  have hq2 : q.2 = c.2.toNat := by rw [← hq]
  have hne : q ≠ p := by
    intro he
    rcases hc with rfl | rfl | rfl | rfl <;>
      (rw [he] at hq1 hq2; simp at hq1 hq2 ⊢ <;> omega)
  unfold DIMENSION
  rcases hc with rfl | rfl | rfl | rfl <;>
    simp only at hq1 hq2 hbound <;>
    refine ⟨by omega, by omega, hne, ?_⟩
  · left; constructor <;> omega
  · right; left; constructor <;> omega
  · right; right; left; constructor <;> omega
  · right; right; right; constructor <;> omega

theorem length_get_next_empties (p : Point) : (get_next_empties p).length ≤ 4 := by
  unfold get_next_empties
  rw [List.length_map]
  exact le_trans (List.length_filter_le _ _) (by simp)

/-! ### Positions and shapes -/

theorem positions_nodup : positions.Nodup := by decide

theorem mem_positions {p : Point} : p ∈ positions ↔ p.1 < DIMENSION ∧ p.2 < DIMENSION := by
  unfold positions
  simp only [List.mem_flatMap, List.mem_map, List.mem_range]
  constructor
  · rintro ⟨a, ha, b, hb, rfl⟩
    exact ⟨ha, hb⟩
  · rintro ⟨h1, h2⟩
    exact ⟨p.1, h1, p.2, h2, by simp⟩

theorem shape_eq_explicit (s : State) (h : Shape s) :
    ∃ a b c d e f g h2 i2, s = [[a, b, c], [d, e, f], [g, h2, i2]] := by
  obtain ⟨hlen, hrows⟩ := h
  unfold DIMENSION at hlen hrows
  obtain ⟨r0, r1, r2, rfl⟩ := List.length_eq_three.mp hlen
  obtain ⟨a, b, c, h0⟩ := List.length_eq_three.mp (hrows r0 (by simp))
  obtain ⟨d, e, f, h1⟩ := List.length_eq_three.mp (hrows r1 (by simp))
  obtain ⟨g, h2, i2, hr2⟩ := List.length_eq_three.mp (hrows r2 (by simp))
  subst h0; subst h1; subst hr2
  exact ⟨a, b, c, d, e, f, g, h2, i2, rfl⟩

theorem flatten_inj (x y : State) (hx : Shape x) (hy : Shape y)
    (h : x.flatten = y.flatten) : x = y := by
  obtain ⟨a, b, c, d, e, f, g, h2, i2, rfl⟩ := shape_eq_explicit x hx
  obtain ⟨a', b', c', d', e', f', g', h2', i2', rfl⟩ := shape_eq_explicit y hy
  simp only [List.flatten, List.append_nil, List.cons_append, List.nil_append,
    List.cons.injEq] at h
  obtain ⟨rfl, rfl, rfl, rfl, rfl, rfl, rfl, rfl, rfl, _⟩ := h
  rfl

theorem shape_rowlen (s : State) (hs : Shape s) (i : Nat) (hi : i < DIMENSION) :
    (s.getD i []).length = DIMENSION := by
  have hmem : s.getD i [] ∈ s := getD_mem _ _ _ (by rw [hs.1]; exact hi)
  exact hs.2 _ hmem

theorem shape_flatten_length (s : State) (hs : Shape s) : s.flatten.length = 9 := by
  obtain ⟨a, b, c, d, e, f, g, h2, i2, rfl⟩ := shape_eq_explicit s hs
  rfl

/-! ### Single moves: membership, shapes, permutation, consistency -/

theorem mem_nextStates (x z : State) (h : z ∈ nextStates x) :
    ∃ e ne, find_empty x = some e ∧ ne ∈ get_next_empties e ∧
      z = get_next_state x e ne := by
  unfold nextStates at h
  rcases hf : find_empty x with _ | e
  · rw [hf] at h; simp at h
  · rw [hf] at h
    simp only [List.mem_map] at h
    obtain ⟨ne, hne, rfl⟩ := h
    exact ⟨e, ne, rfl, hne, rfl⟩

theorem step_bounds (x : State) (hx : Shape x) (e ne : Point)
    (hf : find_empty x = some e) (hne : ne ∈ get_next_empties e) :
    e.1 < x.length ∧ e.2 < (x.getD e.1 []).length ∧
      ne.1 < x.length ∧ ne.2 < (x.getD ne.1 []).length ∧
      cell x e = EMPTY ∧ ne ≠ e := by
  have hf' : find_empty x = some (e.1, e.2) := by simpa using hf
  obtain ⟨he1, he2, hcell, _, _⟩ := find_empty_some_spec x e.1 e.2 hf'
  obtain ⟨hn1, hn2, hnee, _⟩ := mem_get_next_empties e ne hne
  have hxlen : x.length = DIMENSION := hx.1
  refine ⟨he1, he2, by omega, ?_, by simpa using hcell, hnee⟩
  rw [shape_rowlen x hx ne.1 hn1]
  exact hn2

theorem step_shape_perm (x z : State) (hx : Shape x) (h : z ∈ nextStates x) :
    Shape z ∧ z.flatten.Perm x.flatten := by
  obtain ⟨e, ne, hf, hne, rfl⟩ := mem_nextStates x z h
  obtain ⟨he1, he2, hn1, hn2, _, _⟩ := step_bounds x hx e ne hf hne
  constructor
  · exact shape_setCell _ _ _ (shape_setCell _ _ _ hx)
  · exact flatten_get_next_state_perm x e ne he1 he2 hn1 hn2

theorem step_cells (x : State) (hx : Shape x) (e ne : Point)
    (hf : find_empty x = some e) (hne : ne ∈ get_next_empties e) :
    cell (get_next_state x e ne) e = cell x ne ∧
      cell (get_next_state x e ne) ne = EMPTY ∧
      ∀ q : Point, q ≠ e → q ≠ ne → cell (get_next_state x e ne) q = cell x q := by
  obtain ⟨he1, he2, hn1, hn2, hcempty, hnee⟩ := step_bounds x hx e ne hf hne
  have hmid1 : (setCell x ne (cell x e)).length = x.length := length_setCell _ _ _
  have hmid2 : ∀ i, ((setCell x ne (cell x e)).getD i []).length = (x.getD i []).length :=
    fun i => rowlen_setCell _ _ _ _
  refine ⟨?_, ?_, ?_⟩
  · unfold get_next_state
    exact cell_setCell_self _ _ _ (by rw [hmid1]; exact he1) (by rw [hmid2]; exact he2)
  · unfold get_next_state
    rw [cell_setCell_ne _ _ _ _ hnee]
    rw [cell_setCell_self _ _ _ hn1 hn2, hcempty]
  · intro q hqe hqn
    unfold get_next_state
    rw [cell_setCell_ne _ _ _ _ hqe, cell_setCell_ne _ _ _ _ hqn]

theorem perm_cons_cons_of_mem {α : Type} [DecidableEq α] (l : List α) (a b : α)
    (hnd : l.Nodup) (ha : a ∈ l) (hb : b ∈ l) (hab : a ≠ b) :
    ∃ l', l.Perm (a :: b :: l') ∧ ∀ x ∈ l', x ≠ a ∧ x ≠ b := by
  have hb' : b ∈ l.erase a := (List.mem_erase_of_ne hab.symm).mpr hb
  have hperm : l.Perm (a :: b :: (l.erase a).erase b) :=
    (List.perm_cons_erase ha).trans ((List.perm_cons_erase hb').cons a)
  refine ⟨(l.erase a).erase b, hperm, ?_⟩
  have hnd2 : (a :: b :: (l.erase a).erase b).Nodup := hperm.nodup_iff.mp hnd
  simp only [List.nodup_cons, List.mem_cons] at hnd2
  intro x hx
  constructor
  · intro heq; subst heq; exact hnd2.1 (Or.inr hx)
  · intro heq; subst heq; exact hnd2.2.1 hx

theorem h_consistent_step (x z t : State) (hx : Shape x) (hz : z ∈ nextStates x) :
    get_h x t ≤ get_h z t + 1 := by
  obtain ⟨e, ne, hf, hne, rfl⟩ := mem_nextStates x z hz
  obtain ⟨he1, he2, hn1', hn2', hcempty, hnee⟩ := step_bounds x hx e ne hf hne
  obtain ⟨hze, hzne, hframe⟩ := step_cells x hx e ne hf hne
  have hxlen : x.length = DIMENSION := hx.1
  have heP : e ∈ positions := mem_positions.mpr ⟨by omega, by
    have := shape_rowlen x hx e.1 (by omega)
    omega⟩
  obtain ⟨hq1, hq2, _, _⟩ := mem_get_next_empties e ne hne
  have hneP : ne ∈ positions := mem_positions.mpr ⟨hq1, hq2⟩
  obtain ⟨rest, hperm, hrest_ne⟩ :=
    perm_cons_cons_of_mem positions e ne positions_nodup heP hneP hnee.symm
  unfold get_h
  rw [List.Perm.countP_eq _ hperm, List.Perm.countP_eq
    (fun p => decide (cell t p ≠ cell (get_next_state x e ne) p ∧ cell t p ≠ EMPTY)) hperm]
  simp only [List.countP_cons]
  have hrest : List.countP (fun p => decide (cell t p ≠ cell x p ∧ cell t p ≠ EMPTY))
      rest =
      List.countP (fun p => decide (cell t p ≠ cell (get_next_state x e ne) p ∧
        cell t p ≠ EMPTY)) rest := by
    apply List.countP_congr
    intro q hq
    obtain ⟨hqe, hqn⟩ := hrest_ne q hq
    rw [hframe q hqe hqn]
  rw [hrest, hcempty, hze, hzne]
  simp only [decide_eq_true_eq]
  split_ifs <;> first | omega | tauto

/-! ### Reachability in the move graph -/

theorem reachN_zero_iff (x y : State) : reachN 0 x y = true ↔ x = y := by
  simp [reachN]

theorem reachN_succ_iff (k : Nat) (x y : State) :
    reachN (k + 1) x y = true ↔ ∃ z ∈ nextStates x, reachN k z y = true := by
  simp [reachN]

theorem reachN_concat :
    ∀ (m : Nat) (k : Nat) (x z y : State), reachN m x z = true → reachN k z y = true →
      reachN (m + k) x y = true := by
  intro m
  induction m with
  | zero =>
    intro k x z y h1 h2
    rw [reachN_zero_iff] at h1
    subst h1
    simpa using h2
  | succ m ih =>
    intro k x z y h1 h2
    rw [reachN_succ_iff] at h1
    obtain ⟨w, hw, hreach⟩ := h1
    have : (m + 1) + k = (m + k) + 1 := by omega
    rw [this, reachN_succ_iff]
    exact ⟨w, hw, ih k w z y hreach h2⟩

theorem reachN_snoc (k : Nat) (x z w : State) (h : reachN k x z = true)
    (hw : w ∈ nextStates z) : reachN (k + 1) x w = true := by
  have h1 : reachN 1 z w = true := by
    rw [reachN_succ_iff]
    exact ⟨w, hw, by simp [reachN]⟩
  exact reachN_concat k 1 x z w h h1

theorem reach_shape_perm :
    ∀ (k : Nat) (x y : State), reachN k x y = true → Shape x →
      Shape y ∧ y.flatten.Perm x.flatten := by
  intro k
  induction k with
  | zero =>
    intro x y h hx
    rw [reachN_zero_iff] at h
    subst h
    exact ⟨hx, List.Perm.refl _⟩
  | succ k ih =>
    intro x y h hx
    rw [reachN_succ_iff] at h
    obtain ⟨z, hz, hreach⟩ := h
    obtain ⟨hzs, hzp⟩ := step_shape_perm x z hx hz
    obtain ⟨hys, hyp⟩ := ih z y hreach hzs
    exact ⟨hys, hyp.trans hzp⟩

theorem h_path :
    ∀ (k : Nat) (x y t : State), reachN k x y = true → Shape x →
      get_h x t ≤ k + get_h y t := by
  intro k
  induction k with
  | zero =>
    intro x y t h _
    rw [reachN_zero_iff] at h
    subst h
    omega
  | succ k ih =>
    intro x y t h hx
    rw [reachN_succ_iff] at h
    obtain ⟨z, hz, hreach⟩ := h
    have h1 := h_consistent_step x z t hx hz
    have h2 := ih z y t hreach (step_shape_perm x z hx hz).1
    omega

theorem sdist_reachN {x y : State} (h : Reach x y) : reachN (sdist x y) x y = true := by
  unfold Reach at h
  unfold sdist
  rw [dif_pos h]
  exact Nat.find_spec h

theorem sdist_le {x y : State} {n : Nat} (h : reachN n x y = true) : sdist x y ≤ n := by
  unfold sdist
  rw [dif_pos (⟨n, h⟩ : ∃ m, reachN m x y = true)]
  exact Nat.find_min' _ h

theorem sdist_self (x : State) : sdist x x = 0 :=
  Nat.le_zero.mp (sdist_le (by simp [reachN]))

theorem sdist_triangle {x z y : State} (hxz : Reach x z) (hzy : Reach z y) :
    sdist x y ≤ sdist x z + sdist z y :=
  sdist_le (reachN_concat _ _ x z y (sdist_reachN hxz) (sdist_reachN hzy))

/-! ### The goal test -/

theorem is_target_iff (s t : State) : is_target s t = true ↔ get_h s t = 0 := by
  simp [is_target]

theorem get_h_self (t : State) : get_h t t = 0 := by
  unfold get_h
  rw [List.countP_eq_zero]
  intro p _
  simp

theorem count_le_of_forall₂ {l1 l2 : List Char}
    (h : List.Forall₂ (fun a b => b ≠ EMPTY → a = b) l1 l2) :
    l1.count EMPTY ≤ l2.count EMPTY := by
  induction h with
  | nil => simp
  | @cons a b l1' l2' hab htail ih =>
    by_cases hb : b = EMPTY
    · subst hb
      simp only [List.count_cons, beq_iff_eq]
      split_ifs <;> omega
    · have ha : a = b := hab hb
      subst ha
      simp only [List.count_cons]
      omega

theorem eq_of_forall₂_count :
    ∀ (l1 l2 : List Char), List.Forall₂ (fun a b => b ≠ EMPTY → a = b) l1 l2 →
      l1.count EMPTY = l2.count EMPTY → l1 = l2 := by
  intro l1 l2 h
  induction h with
  | nil => intro _; rfl
  | @cons a b l1' l2' hab htail ih =>
    intro hcount
    by_cases hb : b = EMPTY
    · subst hb
      by_cases ha : a = EMPTY
      · subst ha
        have : l1'.count EMPTY = l2'.count EMPTY := by
          simp only [List.count_cons, beq_self_eq_true, if_true] at hcount
          omega
        rw [ih this]
      · have hle := count_le_of_forall₂ htail
        simp only [List.count_cons, beq_iff_eq, beq_self_eq_true, if_true] at hcount
        rw [if_neg ha] at hcount
        omega
    · have ha : a = b := hab hb
      subst ha
      have : l1'.count EMPTY = l2'.count EMPTY := by
        simp only [List.count_cons] at hcount
        omega
      rw [ih this]

theorem goal_state_eq (x t : State) (hx : Shape x) (ht : Shape t)
    (hperm : x.flatten.Perm t.flatten) (hh : get_h x t = 0) : x = t := by
  unfold get_h at hh
  rw [List.countP_eq_zero] at hh
  have key : ∀ p ∈ positions, cell t p ≠ EMPTY → cell x p = cell t p := by
    intro p hp hne
    have hfact := hh p hp
    simp only [decide_eq_true_eq, not_and, not_not] at hfact
    by_contra hx'
    exact hne (hfact (Ne.symm hx'))
  have hcount : x.flatten.count EMPTY = t.flatten.count EMPTY := hperm.count_eq EMPTY
  apply flatten_inj x t hx ht
  apply eq_of_forall₂_count _ _ _ hcount
  obtain ⟨a, b, c, d, e, f, g, h2, i2, hxe⟩ := shape_eq_explicit x hx
  obtain ⟨a', b', c', d', e', f', g', h2', i2', hte⟩ := shape_eq_explicit t ht
  subst hxe; subst hte
  simp only [List.flatten_cons, List.flatten_nil, List.append_nil, List.cons_append,
    List.nil_append]
  refine List.Forall₂.cons (key (0, 0) (by decide)) ?_
  refine List.Forall₂.cons (key (0, 1) (by decide)) ?_
  refine List.Forall₂.cons (key (0, 2) (by decide)) ?_
  refine List.Forall₂.cons (key (1, 0) (by decide)) ?_
  refine List.Forall₂.cons (key (1, 1) (by decide)) ?_
  refine List.Forall₂.cons (key (1, 2) (by decide)) ?_
  refine List.Forall₂.cons (key (2, 0) (by decide)) ?_
  refine List.Forall₂.cons (key (2, 1) (by decide)) ?_
  exact List.Forall₂.cons (key (2, 2) (by decide)) List.Forall₂.nil

/-! ### Stability of the frontier sort -/

instance leF_total {α : Type} {f : α → Nat} : IsTotal α (leF f) :=
  ⟨fun a b => Nat.le_total (f a) (f b)⟩

instance leF_trans {α : Type} {f : α → Nat} : IsTrans α (leF f) :=
  ⟨fun _ _ _ hab hbc => Nat.le_trans hab hbc⟩

theorem pairwise_orderedInsert {α : Type} (f : α → Nat) (P : α → α → Prop)
    (hvac : ∀ a b, f b < f a → P b a) (a : α) :
    ∀ l : List α, (a :: l).Pairwise P →
      (@List.orderedInsert α (leF f) (leFDec f) a l).Pairwise P := by
  intro l
  induction l with
  | nil =>
    intro h
    simp only [List.orderedInsert]
    exact h
  | cons b l ih =>
    intro h
    rw [List.orderedInsert]
    by_cases hab : leF f a b
    · rw [if_pos hab]; exact h
    · rw [if_neg hab]
      rw [List.pairwise_cons] at h
      obtain ⟨ha_all, htail⟩ := h
      rw [List.pairwise_cons] at htail
      obtain ⟨hb_all, hl⟩ := htail
      rw [List.pairwise_cons]
      constructor
      · intro x hx
        have hmem : x ∈ a :: l :=
          (@List.perm_orderedInsert α (leF f) (leFDec f) a l).mem_iff.mp hx
        rcases List.mem_cons.mp hmem with rfl | hxl
        · refine hvac _ _ ?_
          unfold leF at hab
          omega
        · exact hb_all x hxl
      · apply ih
        rw [List.pairwise_cons]
        exact ⟨fun x hx => ha_all x (List.mem_cons_of_mem _ hx), hl⟩

theorem pairwise_insertionSortF {α : Type} (f : α → Nat) (P : α → α → Prop)
    (hvac : ∀ a b, f b < f a → P b a) :
    ∀ l : List α, l.Pairwise P →
      (@List.insertionSort α (leF f) (leFDec f) l).Pairwise P := by
  intro l
  induction l with
  | nil => intro _; exact List.Pairwise.nil
  | cons a l ih =>
    intro h
    rw [List.insertionSort]
    rw [List.pairwise_cons] at h
    apply pairwise_orderedInsert f P hvac
    rw [List.pairwise_cons]
    refine ⟨?_, ih h.2⟩
    intro x hx
    exact h.1 x ((@List.perm_insertionSort α (leF f) (leFDec f) l).subset hx)

theorem sorted_push {α : Type} (f : α → Nat) (q new : List α) :
    List.Sorted (leF f) (CandidateQueue.push f q new) := by
  unfold CandidateQueue.push
  exact @List.sorted_insertionSort α (leF f) (leFDec f) _ _ (q ++ new)

theorem mem_push {α : Type} (f : α → Nat) (q new : List α) (x : α) :
    x ∈ CandidateQueue.push f q new ↔ x ∈ q ∨ x ∈ new := by
  unfold CandidateQueue.push
  rw [(@List.perm_insertionSort α (leF f) (leFDec f) (q ++ new)).mem_iff]
  exact List.mem_append

theorem length_push {α : Type} (f : α → Nat) (q new : List α) :
    (CandidateQueue.push f q new).length = q.length + new.length := by
  unfold CandidateQueue.push
  rw [@List.length_insertionSort α (leF f) (leFDec f) (q ++ new)]
  exact List.length_append _ _

/-! ### The tie-break invariant of the candidate queue -/

theorem tagFrom_mem {α : Type} :
    ∀ (l : List α) (n : Nat) (p : Nat × α), p ∈ tagFrom n l →
      n ≤ p.1 ∧ p.1 < n + l.length := by
  intro l
  induction l with
  | nil => intro n p h; simp [tagFrom] at h
  | cons a l ih =>
    intro n p h
    rw [tagFrom] at h
    rcases List.mem_cons.mp h with rfl | h'
    · simp
    · have := ih (n + 1) p h'
      simp only [List.length_cons]
      omega

theorem tagFrom_pairwise {α : Type} :
    ∀ (l : List α) (n : Nat), (tagFrom n l).Pairwise (fun p q => p.1 < q.1) := by
  intro l
  induction l with
  | nil => intro n; simp [tagFrom]
  | cons a l ih =>
    intro n
    rw [tagFrom, List.pairwise_cons]
    refine ⟨?_, ih (n + 1)⟩
    intro p hp
    have := tagFrom_mem l (n + 1) p hp
    simp only
    omega

theorem cqreach_invariant {α : Type} (f : α → Nat) (q : List (Nat × α)) (n : Nat)
    (h : CQReach f q n) :
    (∀ p ∈ q, p.1 < n) ∧ List.Sorted (leF (fun p => f p.2)) q ∧
      q.Pairwise (fun a b => f a.2 = f b.2 → a.1 < b.1) := by
  induction h with
  | init => exact ⟨by simp, List.sorted_nil, List.Pairwise.nil⟩
  | push q n batch hq ih =>
    obtain ⟨hmem, hsort, hpair⟩ := ih
    refine ⟨?_, sorted_push _ _ _, ?_⟩
    · intro p hp
      rcases (mem_push _ _ _ p).mp hp with hin | hin
      · have := hmem p hin
        omega
      · have := tagFrom_mem batch n p hin
        omega
    · apply pairwise_insertionSortF
      · intro a b hlt heq
        omega
      · rw [List.pairwise_append]
        refine ⟨hpair, ?_, ?_⟩
        · refine List.Pairwise.imp ?_ (tagFrom_pairwise batch n)
          intro a b hlt
          exact fun _ => hlt
        · intro a ha b hb _
          have h1 := hmem a ha
          have h2 := tagFrom_mem batch n b hb
          omega
  | pop x q n hq ih =>
    obtain ⟨hmem, hsort, hpair⟩ := ih
    exact ⟨fun p hp => hmem p (List.mem_cons_of_mem _ hp),
      (List.sorted_cons.mp hsort).2, (List.pairwise_cons.mp hpair).2⟩

/-! ### Children of a node -/

theorem create_children_mem (c : SNode) (e : Point) (m : SNode) :
    m ∈ create_children c e ↔
      ∃ ne ∈ get_next_empties e, m = ⟨get_next_state c.state e ne, c.g + 1⟩ := by
  unfold create_children
  rw [List.mem_map]
  constructor
  · rintro ⟨ne, hne, rfl⟩; exact ⟨ne, hne, rfl⟩
  · rintro ⟨ne, hne, rfl⟩; exact ⟨ne, hne, rfl⟩

theorem create_children_covers (c : SNode) (e : Point) (hf : find_empty c.state = some e)
    (z : State) (hz : z ∈ nextStates c.state) :
    (⟨z, c.g + 1⟩ : SNode) ∈ create_children c e := by
  unfold nextStates at hz
  rw [hf] at hz
  rw [List.mem_map] at hz
  obtain ⟨ne, hne, rfl⟩ := hz
  exact (create_children_mem c e _).mpr ⟨ne, hne, rfl⟩

theorem create_children_sub (c : SNode) (e : Point) (hf : find_empty c.state = some e)
    (m : SNode) (hm : m ∈ create_children c e) :
    m.state ∈ nextStates c.state ∧ m.g = c.g + 1 := by
  obtain ⟨ne, hne, rfl⟩ := (create_children_mem c e m).mp hm
  unfold nextStates
  rw [hf]
  exact ⟨List.mem_map.mpr ⟨ne, hne, rfl⟩, rfl⟩

theorem length_create_children (c : SNode) (e : Point) :
    (create_children c e).length ≤ 4 := by
  unfold create_children
  rw [List.length_map]
  exact length_get_next_empties e

/-! ### Equation lemmas for the search loop -/

theorem goLoop_nil (t : State) (fuel : Nat) (hist : List (List Char)) :
    goLoop t (fuel + 1) [] hist = some (Except.ok (-1)) := rfl

theorem goLoop_target (t : State) (fuel : Nat) (c : SNode) (rest : List SNode)
    (hist : List (List Char)) (h : is_target c.state t = true) :
    goLoop t (fuel + 1) (c :: rest) hist =
      some (Except.ok ((fval t c : Nat) : Int)) := by
  simp [goLoop, h]

theorem goLoop_discard (t : State) (fuel : Nat) (c : SNode) (rest : List SNode)
    (hist : List (List Char)) (h1 : is_target c.state t = false)
    (h2 : reprKey c.state ∈ hist) :
    goLoop t (fuel + 1) (c :: rest) hist = goLoop t fuel rest hist := by
  simp [goLoop, h1, h2]

theorem goLoop_fault (t : State) (fuel : Nat) (c : SNode) (rest : List SNode)
    (hist : List (List Char)) (h1 : is_target c.state t = false)
    (h2 : reprKey c.state ∉ hist) (h3 : find_empty c.state = none) :
    goLoop t (fuel + 1) (c :: rest) hist = some (Except.error ()) := by
  simp [goLoop, h1, h2, h3]

theorem goLoop_expand (t : State) (fuel : Nat) (c : SNode) (rest : List SNode)
    (hist : List (List Char)) (e : Point) (h1 : is_target c.state t = false)
    (h2 : reprKey c.state ∉ hist) (h3 : find_empty c.state = some e) :
    goLoop t (fuel + 1) (c :: rest) hist =
      goLoop t fuel (CandidateQueue.push (fval t) rest (create_children c e))
        (reprKey c.state :: hist) := by
  simp [goLoop, h1, h2, h3]

/-! ### The visited set never repeats a key -/

theorem goReach_nodup (s t : State) (q : List SNode) (V : List (List Char))
    (h : GoReach s t q V) : V.Nodup := by
  induction h with
  | init => exact List.nodup_nil
  | discard c rest V hprev hfalse hmem ih => exact ih
  | expand c rest V e hprev hfalse hmem hf ih => exact List.nodup_cons.mpr ⟨hmem, ih⟩

/-! ### Termination -/

theorem mem_allLists (S : List Char) :
    ∀ (n : Nat) (l : List Char), l.length = n → (∀ c ∈ l, c ∈ S) →
      l ∈ allLists n S := by
  intro n
  induction n with
  | zero =>
    intro l hl _
    rw [List.length_eq_zero] at hl
    subst hl
    simp [allLists]
  | succ n ih =>
    intro l hl hmem
    cases l with
    | nil => simp at hl
    | cons c l' =>
      rw [allLists, List.mem_flatMap]
      refine ⟨c, hmem c (by simp), ?_⟩
      rw [List.mem_map]
      exact ⟨l', ih l' (by simpa using hl) (fun x hx => hmem x (by simp [hx])), rfl⟩

theorem inv6_init (s : State) (hs : Shape s) : Inv6 s [⟨s, 0⟩] [] := by
  refine ⟨?_, by simp, by simp⟩
  intro n hn
  rw [List.mem_singleton] at hn
  subst hn
  exact ⟨hs, List.Perm.refl _⟩

theorem inv6_discard (s : State) (c : SNode) (rest : List SNode)
    (V : List (List Char)) (hinv : Inv6 s (c :: rest) V) : Inv6 s rest V :=
  ⟨fun n hn => hinv.hq n (List.mem_cons_of_mem _ hn), hinv.hV, hinv.hnd⟩

theorem inv6_expand (s t : State) (hs : Shape s) (c : SNode) (rest : List SNode)
    (V : List (List Char)) (e : Point) (hinv : Inv6 s (c :: rest) V)
    (hkey : reprKey c.state ∉ V) (hf : find_empty c.state = some e) :
    Inv6 s (CandidateQueue.push (fval t) rest (create_children c e))
      (reprKey c.state :: V) := by
  obtain ⟨hcs, hcp⟩ := hinv.hq c (List.mem_cons_self _ _)
  refine ⟨?_, ?_, List.nodup_cons.mpr ⟨hkey, hinv.hnd⟩⟩
  · intro n hn
    rcases (mem_push _ _ _ n).mp hn with hin | hin
    · exact hinv.hq n (List.mem_cons_of_mem _ hin)
    · obtain ⟨hmemn, _⟩ := create_children_sub c e hf n hin
      obtain ⟨hns, hnp⟩ := step_shape_perm c.state n.state hcs hmemn
      exact ⟨hns, hnp.trans hcp⟩
  · intro k hk
    rcases List.mem_cons.mp hk with rfl | hk'
    · constructor
      · rw [reprKey, hcp.length_eq]
        exact shape_flatten_length s hs
      · intro ch hch
        exact hcp.mem_iff.mp hch
    · exact hinv.hV k hk'

theorem inv6_vbound (s : State) (V : List (List Char))
    (hV : ∀ k ∈ V, k.length = 9 ∧ ∀ c ∈ k, c ∈ s.flatten) (hnd : V.Nodup) :
    V.length ≤ (allLists 9 s.flatten).length :=
  (List.Nodup.subperm hnd
    (fun k hk => mem_allLists s.flatten 9 k (hV k hk).1 (hV k hk).2)).length_le

theorem goLoop_terminates (s t : State) (hs : Shape s) (hemp : EMPTY ∈ s.flatten) :
    ∀ (fuel : Nat) (q : List SNode) (V : List (List Char)), Inv6 s q V →
      goMeasure s q V ≤ fuel → ∃ k : Int, goLoop t fuel q V = some (Except.ok k) := by
  intro fuel
  induction fuel with
  | zero =>
    intro q V hinv hle
    unfold goMeasure at hle
    omega
  | succ fuel ih =>
    intro q V hinv hle
    cases q with
    | nil => exact ⟨-1, rfl⟩
    | cons c rest =>
      by_cases htar : is_target c.state t = true
      · exact ⟨((fval t c : Nat) : Int), goLoop_target t fuel c rest V htar⟩
      · have htarf : is_target c.state t = false := by
          revert htar
          cases is_target c.state t <;> simp
        by_cases hmem : reprKey c.state ∈ V
        · rw [goLoop_discard t fuel c rest V htarf hmem]
          apply ih rest V (inv6_discard s c rest V hinv)
          unfold goMeasure at *
          simp only [List.length_cons] at hle
          omega
        · have hperm := (hinv.hq c (List.mem_cons_self _ _)).2
          have hempc : EMPTY ∈ c.state.flatten := hperm.mem_iff.mpr hemp
          obtain ⟨e, hf⟩ := find_empty_isSome_of_mem _ hempc
          rw [goLoop_expand t fuel c rest V e htarf hmem hf]
          have hinv' := inv6_expand s t hs c rest V e hinv hmem hf
          apply ih _ _ hinv'
          have hlen : (CandidateQueue.push (fval t) rest (create_children c e)).length ≤
              rest.length + 4 := by
            rw [length_push]
            have := length_create_children c e
            omega
          have hbound : (reprKey c.state :: V).length ≤ (allLists 9 s.flatten).length :=
            inv6_vbound s _ hinv'.hV hinv'.hnd
          unfold goMeasure at *
          simp only [List.length_cons] at hle hbound ⊢
          omega

theorem goLoop_no_error (s t : State) (hs : Shape s) (hemp : EMPTY ∈ s.flatten) :
    ∀ (fuel : Nat) (q : List SNode) (V : List (List Char)), Inv6 s q V →
      ∀ r, goLoop t fuel q V = some r → ∃ k : Int, r = Except.ok k := by
  intro fuel
  induction fuel with
  | zero =>
    intro q V _ r h
    cases h
  | succ fuel ih =>
    intro q V hinv r h
    cases q with
    | nil =>
      rw [goLoop_nil] at h
      exact ⟨-1, (Option.some_injective _ h).symm⟩
    | cons c rest =>
      by_cases htar : is_target c.state t = true
      · rw [goLoop_target t fuel c rest V htar] at h
        exact ⟨_, (Option.some_injective _ h).symm⟩
      · have htarf : is_target c.state t = false := by
          revert htar
          cases is_target c.state t <;> simp
        by_cases hmem : reprKey c.state ∈ V
        · rw [goLoop_discard t fuel c rest V htarf hmem] at h
          exact ih rest V (inv6_discard s c rest V hinv) r h
        · have hperm := (hinv.hq c (List.mem_cons_self _ _)).2
          have hempc : EMPTY ∈ c.state.flatten := hperm.mem_iff.mpr hemp
          obtain ⟨e, hf⟩ := find_empty_isSome_of_mem _ hempc
          rw [goLoop_expand t fuel c rest V e htarf hmem hf] at h
          exact ih _ _ (inv6_expand s t hs c rest V e hinv hmem hf) r h

/-! ### The A* optimality argument -/

theorem sorted_head_min (t : State) (c : SNode) (rest : List SNode)
    (h : List.Sorted (leF (fval t)) (c :: rest)) :
    ∀ n ∈ rest, fval t c ≤ fval t n :=
  fun n hn => (List.sorted_cons.mp h).1 n hn

theorem popt (s t : State) (c : SNode) (rest : List SNode) (V : List (List Char))
    (hinv : AInv s t (c :: rest) V) (hkey : c.state.flatten ∉ V) :
    c.g = sdist s c.state := by
  obtain ⟨hcs, hcp, hcr⟩ := hinv.qstate c (List.mem_cons_self _ _)
  have hreach : Reach s c.state := ⟨c.g, hcr⟩
  obtain ⟨n0, hn0mem, hn0key, hn0reach, hn0g, hn0dist⟩ :=
    hinv.frontier c.state hreach hkey
  have hge : sdist s c.state ≤ c.g := sdist_le hcr
  rcases List.mem_cons.mp hn0mem with rfl | hn0rest
  · exact hn0g
  · have hmin : fval t c ≤ fval t n0 := sorted_head_min t c rest hinv.sorted n0 hn0rest
    obtain ⟨hn0s, _, _⟩ := hinv.qstate n0 (List.mem_cons_of_mem _ hn0rest)
    have hcons : get_h n0.state t ≤ sdist n0.state c.state + get_h c.state t :=
      h_path (sdist n0.state c.state) n0.state c.state t (sdist_reachN hn0reach) hn0s
    unfold fval at hmin
    omega

theorem walk (s _t : State) (q : List SNode) (V : List (List Char))
    (hq : ∀ n ∈ q, Shape n.state ∧ n.state.flatten.Perm s.flatten ∧
      reachN n.g s n.state = true)
    (hcl : ∀ x, Shape x → x.flatten ∈ V → ∀ z, z ∈ nextStates x →
      z.flatten ∈ V ∨ ∃ m ∈ q, m.state = z ∧ m.g ≤ sdist s x + 1) :
    ∀ (k : Nat) (x y : State), Shape x → Reach s x → x.flatten ∈ V → Reach x y →
      y.flatten ∉ V → sdist s y = sdist s x + sdist x y → sdist x y = k →
      ∃ n ∈ q, n.state.flatten ∉ V ∧ Reach n.state y ∧ n.g = sdist s n.state ∧
        sdist s y = n.g + sdist n.state y := by
  intro k
  induction k using Nat.strong_induction_on with
  | _ k ih =>
    intro x y hxs hsx hxV hxy hyV hsum hk
    cases k with
    | zero =>
      have hxy0 := sdist_reachN hxy
      rw [hk, reachN_zero_iff] at hxy0
      subst hxy0
      exact absurd hxV hyV
    | succ k' =>
      have hr := sdist_reachN hxy
      rw [hk, reachN_succ_iff] at hr
      obtain ⟨z, hz, hzk⟩ := hr
      have hsz_le : sdist s z ≤ sdist s x + 1 :=
        sdist_le (reachN_snoc _ s x z (sdist_reachN hsx) hz)
      have hzy_le : sdist z y ≤ k' := sdist_le hzk
      have hreach_zy : Reach z y := ⟨k', hzk⟩
      have hreach_sz : Reach s z :=
        ⟨sdist s x + 1, reachN_snoc _ s x z (sdist_reachN hsx) hz⟩
      have htri : sdist s y ≤ sdist s z + sdist z y := sdist_triangle hreach_sz hreach_zy
      have hsz : sdist s z = sdist s x + 1 := by omega
      have hzy : sdist z y = k' := by omega
      have hsum' : sdist s y = sdist s z + sdist z y := by omega
      have hzs : Shape z := (step_shape_perm x z hxs hz).1
      by_cases hzV : z.flatten ∈ V
      · exact ih k' (by omega) z y hzs hreach_sz hzV hreach_zy hyV hsum' hzy
      · rcases hcl x hxs hxV z hz with hin | ⟨m, hm, hms, hmg⟩
        · exact absurd hin hzV
        · have hmge : sdist s z ≤ m.g := by
            have hmr := (hq m hm).2.2
            rw [hms] at hmr
            exact sdist_le hmr
          have hmg_eq : m.g = sdist s z := by omega
          refine ⟨m, hm, ?_, ?_, ?_, ?_⟩
          · rw [hms]; exact hzV
          · rw [hms]; exact hreach_zy
          · rw [hms, hmg_eq]
          · rw [hms]; omega

theorem ainv_init (s t : State) (hs : Shape s) : AInv s t [⟨s, 0⟩] [] := by
  refine ⟨?_, by simp, by simp, by simp, List.sorted_singleton _, ?_, by simp⟩
  · intro n hn
    rw [List.mem_singleton] at hn
    subst hn
    exact ⟨hs, List.Perm.refl _, by simp [reachN]⟩
  · intro y hy hyV
    refine ⟨⟨s, 0⟩, List.mem_singleton_self _, by simp, hy, ?_, ?_⟩
    · show 0 = sdist s s
      rw [sdist_self]
    · show sdist s y = 0 + sdist s y
      omega

theorem ainv_discard (s t : State) (c : SNode) (rest : List SNode)
    (V : List (List Char)) (hinv : AInv s t (c :: rest) V)
    (hkey : c.state.flatten ∈ V) : AInv s t rest V := by
  refine ⟨fun n hn => hinv.qstate n (List.mem_cons_of_mem _ hn), hinv.vkeys, hinv.vnd,
    hinv.vtarget, (List.sorted_cons.mp hinv.sorted).2, ?_, ?_⟩
  · intro y hy hyV
    obtain ⟨n, hnmem, hnkey, hnr, hng, hnd⟩ := hinv.frontier y hy hyV
    rcases List.mem_cons.mp hnmem with rfl | hnrest
    · exact absurd hkey hnkey
    · exact ⟨n, hnrest, hnkey, hnr, hng, hnd⟩
  · intro x hxs hxV z hz
    rcases hinv.closure x hxs hxV z hz with hin | ⟨m, hmmem, hms, hmg⟩
    · exact Or.inl hin
    · rcases List.mem_cons.mp hmmem with rfl | hmrest
      · left
        rw [← hms]
        exact hkey
      · exact Or.inr ⟨m, hmrest, hms, hmg⟩

theorem ainv_expand (s t : State) (_hs : Shape s) (ht : Shape t) (c : SNode)
    (rest : List SNode) (V : List (List Char)) (e : Point)
    (hinv : AInv s t (c :: rest) V) (hkey : c.state.flatten ∉ V)
    (htar : is_target c.state t = false) (hf : find_empty c.state = some e) :
    AInv s t (CandidateQueue.push (fval t) rest (create_children c e))
      (c.state.flatten :: V) := by
  obtain ⟨hcs, hcp, hcr⟩ := hinv.qstate c (List.mem_cons_self _ _)
  have hpopt : c.g = sdist s c.state := popt s t c rest V hinv hkey
  have hqstate' : ∀ n ∈ CandidateQueue.push (fval t) rest (create_children c e),
      Shape n.state ∧ n.state.flatten.Perm s.flatten ∧ reachN n.g s n.state = true := by
    intro n hn
    rcases (mem_push _ _ _ n).mp hn with hin | hin
    · exact hinv.qstate n (List.mem_cons_of_mem _ hin)
    · obtain ⟨hmem, hg⟩ := create_children_sub c e hf n hin
      obtain ⟨hns, hnp⟩ := step_shape_perm c.state n.state hcs hmem
      refine ⟨hns, hnp.trans hcp, ?_⟩
      rw [hg]
      exact reachN_snoc c.g s c.state n.state hcr hmem
  have hclosure' : ∀ x, Shape x → x.flatten ∈ (c.state.flatten :: V) →
      ∀ z, z ∈ nextStates x → z.flatten ∈ (c.state.flatten :: V) ∨
        ∃ m ∈ CandidateQueue.push (fval t) rest (create_children c e),
          m.state = z ∧ m.g ≤ sdist s x + 1 := by
    intro x hxs hxV z hz
    rcases List.mem_cons.mp hxV with hnew | hold
    · have hx_eq : x = c.state := flatten_inj x c.state hxs hcs hnew
      subst hx_eq
      right
      refine ⟨⟨z, c.g + 1⟩, (mem_push _ _ _ _).mpr
        (Or.inr (create_children_covers c e hf z hz)), rfl, ?_⟩
      show c.g + 1 ≤ sdist s c.state + 1
      omega
    · rcases hinv.closure x hxs hold z hz with hin | ⟨m, hmmem, hms, hmg⟩
      · exact Or.inl (List.mem_cons_of_mem _ hin)
      · rcases List.mem_cons.mp hmmem with rfl | hmrest
        · left
          rw [← hms]
          exact List.mem_cons_self _ _
        · exact Or.inr ⟨m, (mem_push _ _ _ m).mpr (Or.inl hmrest), hms, hmg⟩
  refine ⟨hqstate', ?_, List.nodup_cons.mpr ⟨hkey, hinv.vnd⟩, ?_, sorted_push _ _ _,
    ?_, hclosure'⟩
  · intro k hk
    rcases List.mem_cons.mp hk with rfl | hk'
    · exact ⟨c.state, hcs, rfl, ⟨c.g, hcr⟩⟩
    · exact hinv.vkeys k hk'
  · intro k hk
    rcases List.mem_cons.mp hk with rfl | hk'
    · intro heq
      have hct : c.state = t := flatten_inj _ _ hcs ht heq
      have htrue : is_target c.state t = true := by
        rw [is_target_iff, hct]
        exact get_h_self t
      rw [htrue] at htar
      cases htar
    · exact hinv.vtarget k hk'
  · intro y hy hyV
    have hyV' : y.flatten ∉ V := fun h => hyV (List.mem_cons_of_mem _ h)
    obtain ⟨n, hnmem, hnkey, hnr, hng, hnd⟩ := hinv.frontier y hy hyV'
    by_cases hnc : n.state.flatten = c.state.flatten
    · have hns := (hinv.qstate n hnmem).1
      have hn_eq : n.state = c.state := flatten_inj _ _ hns hcs hnc
      rw [hn_eq] at hnr hnd hng
      exact walk s t _ (c.state.flatten :: V) hqstate' hclosure'
        (sdist c.state y) c.state y hcs ⟨c.g, hcr⟩ (List.mem_cons_self _ _) hnr hyV
        (by omega) rfl
    · have hnrest : n ∈ rest := by
        rcases List.mem_cons.mp hnmem with rfl | h'
        · exact absurd rfl hnc
        · exact h'
      refine ⟨n, (mem_push _ _ _ n).mpr (Or.inl hnrest), ?_, hnr, hng, hnd⟩
      intro hmem
      rcases List.mem_cons.mp hmem with h' | h'
      · exact hnc h'
      · exact hnkey h'

theorem goLoop_correct (s t : State) (hs : Shape s) (ht : Shape t)
    (hst : s.flatten.Perm t.flatten) (hemp : EMPTY ∈ s.flatten) (hsolv : Reach s t) :
    ∀ (fuel : Nat) (q : List SNode) (V : List (List Char)), AInv s t q V →
      ∀ r, goLoop t fuel q V = some r → r = Except.ok ((sdist s t : Nat) : Int) := by
  intro fuel
  induction fuel with
  | zero =>
    intro q V _ r h
    cases h
  | succ fuel ih =>
    intro q V hinv r h
    cases q with
    | nil =>
      exfalso
      have htV : t.flatten ∉ V := fun hmem => (hinv.vtarget _ hmem) rfl
      obtain ⟨n, hnmem, _⟩ := hinv.frontier t hsolv htV
      simp at hnmem
    | cons c rest =>
      obtain ⟨hcs, hcp, hcr⟩ := hinv.qstate c (List.mem_cons_self _ _)
      by_cases htar : is_target c.state t = true
      · have hh : get_h c.state t = 0 := (is_target_iff _ _).mp htar
        have hct : c.state = t := goal_state_eq c.state t hcs ht (hcp.trans hst) hh
        have hkey : c.state.flatten ∉ V := by
          rw [hct]
          intro hmem
          exact (hinv.vtarget _ hmem) rfl
        have hgopt : c.g = sdist s c.state := popt s t c rest V hinv hkey
        rw [goLoop_target t fuel c rest V htar] at h
        have hr := (Option.some_injective _ h).symm
        rw [hr]
        unfold fval
        rw [hh, hgopt, hct]
        norm_num
      · have htarf : is_target c.state t = false := by
          revert htar
          cases is_target c.state t <;> simp
        by_cases hmem : reprKey c.state ∈ V
        · rw [goLoop_discard t fuel c rest V htarf hmem] at h
          exact ih rest V (ainv_discard s t c rest V hinv hmem) r h
        · have hempc : EMPTY ∈ c.state.flatten := hcp.mem_iff.mpr hemp
          obtain ⟨e, hf⟩ := find_empty_isSome_of_mem _ hempc
          rw [goLoop_expand t fuel c rest V e htarf hmem hf] at h
          exact ih _ _ (ainv_expand s t hs ht c rest V e hinv hmem htarf hf) r h

/-! ### Claim theorems -/

/-- C1: for every start and target configuration satisfying the Configuration
invariant (well-formed boards, equal label multisets, exactly one empty cell)
such that the target is reachable from the start, `go` terminates and the
step count it returns is the length of a shortest sequence of single-tile
moves transforming start into target — the true shortest-path distance in
the move graph. -/
theorem go_returns_shortest_distance :
    ∀ s t : State, Shape s → Shape t → s.flatten.Perm t.flatten →
      t.flatten.count EMPTY = 1 → (∃ n, reachN n s t = true) →
      (∃ (fuel : Nat) (r : Except Unit Int), go s t fuel = some r) ∧
      ∀ (fuel : Nat) (r : Except Unit Int), go s t fuel = some r →
        ∃ k : Nat, r = Except.ok (k : Int) ∧ reachN k s t = true ∧
          ∀ m : Nat, reachN m s t = true → k ≤ m := by
  intro s t hs ht hperm hone hsolv
  have hempt : EMPTY ∈ t.flatten := List.count_pos_iff.mp (by omega)
  have hemps : EMPTY ∈ s.flatten := hperm.mem_iff.mpr hempt
  constructor
  · obtain ⟨k, hk⟩ := goLoop_terminates s t hs hemps (goMeasure s [⟨s, 0⟩] [])
      [⟨s, 0⟩] [] (inv6_init s hs) (le_refl _)
    exact ⟨goMeasure s [⟨s, 0⟩] [], Except.ok k, hk⟩
  · intro fuel r h
    have hr := goLoop_correct s t hs ht hperm hemps hsolv fuel [⟨s, 0⟩] []
      (ainv_init s t hs) r h
    exact ⟨sdist s t, hr, sdist_reachN hsolv, fun m hm => sdist_le hm⟩

/-- C1 witness: the trivially solvable pair start = target. -/
theorem go_returns_shortest_distance_witness :
    (Shape DEBUG_TARGET_STATE ∧ DEBUG_TARGET_STATE.flatten.count EMPTY = 1 ∧
      reachN 0 DEBUG_TARGET_STATE DEBUG_TARGET_STATE = true) ∧
    ((∃ (fuel : Nat) (r : Except Unit Int),
        go DEBUG_TARGET_STATE DEBUG_TARGET_STATE fuel = some r) ∧
      ∀ (fuel : Nat) (r : Except Unit Int),
        go DEBUG_TARGET_STATE DEBUG_TARGET_STATE fuel = some r →
        ∃ k : Nat, r = Except.ok (k : Int) ∧
          reachN k DEBUG_TARGET_STATE DEBUG_TARGET_STATE = true ∧
          ∀ m : Nat, reachN m DEBUG_TARGET_STATE DEBUG_TARGET_STATE = true → k ≤ m) :=
  ⟨⟨by decide, by decide, by decide⟩,
    go_returns_shortest_distance DEBUG_TARGET_STATE DEBUG_TARGET_STATE (by decide)
      (by decide) (List.Perm.refl _) (by decide) ⟨0, by decide⟩⟩

/-- C2: when the loop pops a node whose configuration matches the target, it
returns that node's `g` (the code returns `f = g + h`, and `h = 0` exactly
on the goal test); `g` is 0 for the root node pushed by `go` and
`parent.g + 1` for every child created by `create_children`. -/
theorem goLoop_returns_g_on_target :
    ∀ (t : State) (c : SNode) (rest : List SNode) (hist : List (List Char))
      (fuel : Nat), is_target c.state t = true →
      goLoop t (fuel + 1) (c :: rest) hist = some (Except.ok ((c.g : Nat) : Int)) ∧
      fval t c = c.g ∧
      (∀ e : Point, ∀ ch ∈ create_children c e, ch.g = c.g + 1) ∧
      (∀ (s : State) (fuel2 : Nat), go s t fuel2 = goLoop t fuel2 [⟨s, 0⟩] []) := by
  intro t c rest hist fuel htar
  have hh : get_h c.state t = 0 := (is_target_iff _ _).mp htar
  have hf : fval t c = c.g := by unfold fval; omega
  refine ⟨?_, hf, ?_, fun s fuel2 => rfl⟩
  · rw [goLoop_target t fuel c rest hist htar, hf]
  · intro e ch hch
    obtain ⟨ne, hne, rfl⟩ := (create_children_mem c e ch).mp hch
    rfl

/-- C2 witness: popping a goal node with `g = 5` returns 5. -/
theorem goLoop_returns_g_on_target_witness :
    is_target DEBUG_TARGET_STATE DEBUG_TARGET_STATE = true ∧
    (goLoop DEBUG_TARGET_STATE 1 [⟨DEBUG_TARGET_STATE, 5⟩] [] =
        some (Except.ok ((5 : Nat) : Int)) ∧
      fval DEBUG_TARGET_STATE ⟨DEBUG_TARGET_STATE, 5⟩ = 5 ∧
      (∀ e : Point, ∀ ch ∈ create_children ⟨DEBUG_TARGET_STATE, 5⟩ e, ch.g = 5 + 1) ∧
      (∀ (s : State) (fuel2 : Nat),
        go s DEBUG_TARGET_STATE fuel2 = goLoop DEBUG_TARGET_STATE fuel2 [⟨s, 0⟩] [])) :=
  ⟨by decide, goLoop_returns_g_on_target DEBUG_TARGET_STATE ⟨DEBUG_TARGET_STATE, 5⟩
    [] [] 0 (by decide)⟩

/-- C3: `is_target` returns true iff `h = 0`, and `h` is exactly the spec's
count of cells whose target label is non-empty and differs from the
configuration's label. -/
theorem is_target_characterization :
    ∀ s t : State, (is_target s t = true ↔ get_h s t = 0) ∧ get_h s t = spec_h s t := by
  intro s t
  refine ⟨is_target_iff s t, ?_⟩
  unfold get_h spec_h
  apply List.countP_congr
  intro p _
  simp only [decide_eq_true_eq]
  constructor
  · rintro ⟨h1, h2⟩
    exact ⟨h2, Ne.symm h1⟩
  · rintro ⟨h1, h2⟩
    exact ⟨Ne.symm h2, h1⟩

/-- C4: the visited-set key (the concatenated grid) distinguishes any two
well-formed configurations; during a run of the search loop the visited set
never holds a key twice; and a popped node whose key is already present is
discarded by an iteration that creates no children and leaves the visited
set unchanged. -/
theorem visited_set_properties :
    ∀ s t : State,
      (∀ x y : State, Shape x → Shape y → reprKey x = reprKey y → x = y) ∧
      (∀ (q : List SNode) (V : List (List Char)), GoReach s t q V → V.Nodup) ∧
      (∀ (fuel : Nat) (c : SNode) (rest : List SNode) (hist : List (List Char)),
        is_target c.state t = false → reprKey c.state ∈ hist →
        goLoop t (fuel + 1) (c :: rest) hist = goLoop t fuel rest hist) :=
  fun s t =>
    ⟨fun x y hx hy h => flatten_inj x y hx hy h,
     fun q V h => goReach_nodup s t q V h,
     fun fuel c rest hist h1 h2 => goLoop_discard t fuel c rest hist h1 h2⟩

/-- C4 witness: key injectivity on a concrete board, the empty history of the
initial run state, and a concrete discarding iteration. -/
theorem visited_set_properties_witness :
    DEBUG_START_STATE = DEBUG_START_STATE ∧
    ([] : List (List Char)).Nodup ∧
    goLoop DEBUG_TARGET_STATE 1 [⟨DEBUG_START_STATE, 0⟩] [reprKey DEBUG_START_STATE] =
      goLoop DEBUG_TARGET_STATE 0 [] [reprKey DEBUG_START_STATE] :=
  ⟨(visited_set_properties DEBUG_START_STATE DEBUG_TARGET_STATE).1
      DEBUG_START_STATE DEBUG_START_STATE (by decide) (by decide) rfl,
   (visited_set_properties DEBUG_START_STATE DEBUG_TARGET_STATE).2.1 _ _ GoReach.init,
   (visited_set_properties DEBUG_START_STATE DEBUG_TARGET_STATE).2.2 0
     ⟨DEBUG_START_STATE, 0⟩ [] [reprKey DEBUG_START_STATE] (by decide)
     (List.mem_singleton_self _)⟩

/-- C5: for every sequence of push and pop operations on an initially empty
candidate queue, a pop returns a node whose `f`-value is minimal among the
queue's nodes, and among equal `f`-values the first-inserted node (smallest
ghost insertion index) is returned first. -/
theorem candidate_queue_pop_min :
    ∀ {α : Type} (f : α → Nat) (q : List (Nat × α)) (n : Nat), CQReach f q n →
      ∀ (x : Nat × α) (rest : List (Nat × α)), CandidateQueue.pop q = some (x, rest) →
      ∀ b ∈ rest, f x.2 ≤ f b.2 ∧ (f b.2 = f x.2 → x.1 < b.1) := by
  intro α f q n h x rest hpop b hb
  obtain ⟨hmem, hsort, hpair⟩ := cqreach_invariant f q n h
  cases q with
  | nil => cases hpop
  | cons a q' =>
    unfold CandidateQueue.pop at hpop
    injection hpop with h'
    rw [Prod.mk.injEq] at h'
    obtain ⟨rfl, rfl⟩ := h'
    constructor
    · exact (List.sorted_cons.mp hsort).1 b hb
    · exact fun heq => (List.pairwise_cons.mp hpair).1 b hb heq.symm

/-- C5 witness: pushing the batch with keys 5, 3, 3 and popping returns the
first-inserted key-3 node. -/
theorem candidate_queue_pop_min_witness :
    CandidateQueue.pop (CandidateQueue.push (fun p : Nat × Nat => p.2) []
        (tagFrom 0 [5, 3, 3])) = some ((1, 3), [(2, 3), (0, 5)]) ∧
    ∀ b ∈ [((2 : Nat), (3 : Nat)), ((0 : Nat), (5 : Nat))],
      (3 : Nat) ≤ b.2 ∧ (b.2 = 3 → 1 < b.1) :=
  ⟨by decide, fun b hb =>
    candidate_queue_pop_min (fun v : Nat => v) _ (0 + 3)
      (CQReach.push [] 0 [5, 3, 3] CQReach.init) (1, 3) [(2, 3), (0, 5)]
      (by decide) b hb⟩

/-- C6: for every well-formed start configuration containing the empty tile,
the search loop terminates: some finite fuel makes `go` return a value, and
the value is a normal integer result (a step count or the failure value). -/
theorem go_terminates :
    ∀ s t : State, Shape s → EMPTY ∈ s.flatten →
      ∃ (fuel : Nat) (k : Int), go s t fuel = some (Except.ok k) := by
  intro s t hs hemp
  obtain ⟨k, hk⟩ := goLoop_terminates s t hs hemp (goMeasure s [⟨s, 0⟩] [])
    [⟨s, 0⟩] [] (inv6_init s hs) (le_refl _)
  exact ⟨goMeasure s [⟨s, 0⟩] [], k, hk⟩

/-- C6 witness: the debug fixture pair terminates. -/
theorem go_terminates_witness :
    Shape DEBUG_START_STATE ∧ EMPTY ∈ DEBUG_START_STATE.flatten ∧
      ∃ (fuel : Nat) (k : Int),
        go DEBUG_START_STATE DEBUG_TARGET_STATE fuel = some (Except.ok k) :=
  ⟨by decide, by decide,
    go_terminates DEBUG_START_STATE DEBUG_TARGET_STATE (by decide) (by decide)⟩

/-- C7: when the frontier becomes empty the loop returns the explicit failure
indicator -1 as a normal value; under the well-formedness invariant no run of
`go` ever produces the exception result; and a concrete unsolvable pair
(whose whole reachable component is explored) returns -1 after exhausting
the frontier. -/
theorem go_failure_contract :
    (∀ (t : State) (hist : List (List Char)) (fuel : Nat),
      goLoop t (fuel + 1) [] hist = some (Except.ok (-1))) ∧
    (∀ s t : State, Shape s → EMPTY ∈ s.flatten →
      ∀ (fuel : Nat) (r : Except Unit Int), go s t fuel = some r →
        ∃ k : Int, r = Except.ok k) ∧
    go EXH_START EXH_TARGET 40 = some (Except.ok (-1)) := by
  refine ⟨fun t hist fuel => goLoop_nil t fuel hist, ?_, by rfl⟩
  intro s t hs hemp fuel r h
  exact goLoop_no_error s t hs hemp fuel [⟨s, 0⟩] [] (inv6_init s hs) r h

/-- C7 witness: the exhausted branch at a concrete history, and a concrete
successful run yielding a normal value. -/
theorem go_failure_contract_witness :
    goLoop DEBUG_TARGET_STATE 1 [] [reprKey DEBUG_START_STATE] =
        some (Except.ok (-1)) ∧
    ∃ k : Int, (Except.ok (0 : Int) : Except Unit Int) = Except.ok k :=
  ⟨go_failure_contract.1 DEBUG_TARGET_STATE [reprKey DEBUG_START_STATE] 0,
   go_failure_contract.2.1 DEBUG_TARGET_STATE DEBUG_TARGET_STATE (by decide)
     (by decide) 1 (Except.ok 0) (by rfl)⟩

/-- C8: the move generator returns exactly the orthogonal neighbours of the
empty position that lie on the board, in the fixed enumeration order down,
up, right, left (the spec-level candidate list). -/
theorem get_next_empties_spec :
    ∀ p : Point, p.1 < DIMENSION → p.2 < DIMENSION →
      get_next_empties p = specCandidateMoves p := by
  rintro ⟨r, c⟩ h1 h2
  unfold DIMENSION at h1 h2
  interval_cases r <;> interval_cases c <;> decide

/-- C8 witness: the centre cell has all four neighbours in order. -/
theorem get_next_empties_spec_witness :
    (1 : Nat) < DIMENSION ∧ (1 : Nat) < DIMENSION ∧
      get_next_empties (1, 1) = specCandidateMoves (1, 1) :=
  ⟨by decide, by decide, get_next_empties_spec (1, 1) (by decide) (by decide)⟩

/-- C9: `get_next_state` exchanges the labels at the two given positions,
leaves every other cell unchanged, and preserves the shape of the board;
being a pure function of the old configuration it cannot mutate its input. -/
theorem get_next_state_spec :
    ∀ (s : State) (cur nxt : Point),
      cur.1 < s.length → cur.2 < (s.getD cur.1 []).length →
      nxt.1 < s.length → nxt.2 < (s.getD nxt.1 []).length →
      cell (get_next_state s cur nxt) nxt = cell s cur ∧
      cell (get_next_state s cur nxt) cur = cell s nxt ∧
      (∀ p : Point, p ≠ cur → p ≠ nxt → cell (get_next_state s cur nxt) p = cell s p) ∧
      (get_next_state s cur nxt).length = s.length ∧
      (∀ i : Nat, ((get_next_state s cur nxt).getD i []).length = (s.getD i []).length) := by
  intro s cur nxt h1 h2 h3 h4
  have hmidlen : (setCell s nxt (cell s cur)).length = s.length := length_setCell _ _ _
  have hmidrow : ∀ i, ((setCell s nxt (cell s cur)).getD i []).length =
      (s.getD i []).length := fun i => rowlen_setCell _ _ _ _
  refine ⟨?_, ?_, ?_, ?_, ?_⟩
  · unfold get_next_state
    by_cases hcn : nxt = cur
    · subst hcn
      exact cell_setCell_self _ _ _ (by rw [hmidlen]; exact h3) (by rw [hmidrow]; exact h4)
    · rw [cell_setCell_ne _ _ _ _ hcn]
      exact cell_setCell_self _ _ _ h3 h4
  · unfold get_next_state
    exact cell_setCell_self _ _ _ (by rw [hmidlen]; exact h1) (by rw [hmidrow]; exact h2)
  · intro p hpc hpn
    unfold get_next_state
    rw [cell_setCell_ne _ _ _ _ hpc, cell_setCell_ne _ _ _ _ hpn]
  · unfold get_next_state
    rw [length_setCell, length_setCell]
  · intro i
    unfold get_next_state
    rw [rowlen_setCell, rowlen_setCell]

/-- C9 witness: swapping the empty cell of the debug start state with the
cell above it. -/
theorem get_next_state_spec_witness :
    ((1 : Nat) < DEBUG_START_STATE.length ∧
      (0 : Nat) < (DEBUG_START_STATE.getD 1 []).length ∧
      (0 : Nat) < DEBUG_START_STATE.length ∧
      (0 : Nat) < (DEBUG_START_STATE.getD 0 []).length) ∧
    (cell (get_next_state DEBUG_START_STATE (1, 0) (0, 0)) (0, 0) =
        cell DEBUG_START_STATE (1, 0) ∧
      cell (get_next_state DEBUG_START_STATE (1, 0) (0, 0)) (1, 0) =
        cell DEBUG_START_STATE (0, 0) ∧
      (∀ p : Point, p ≠ (1, 0) → p ≠ (0, 0) →
        cell (get_next_state DEBUG_START_STATE (1, 0) (0, 0)) p =
          cell DEBUG_START_STATE p) ∧
      (get_next_state DEBUG_START_STATE (1, 0) (0, 0)).length =
        DEBUG_START_STATE.length ∧
      (∀ i : Nat, ((get_next_state DEBUG_START_STATE (1, 0) (0, 0)).getD i []).length =
        (DEBUG_START_STATE.getD i []).length)) :=
  ⟨⟨by decide, by decide, by decide, by decide⟩,
    get_next_state_spec DEBUG_START_STATE (1, 0) (0, 0) (by decide) (by decide)
      (by decide) (by decide)⟩

/-- C10: `find_empty` scans row-major and returns the coordinates of the
first cell holding the empty label; it fails (returns the exception marker)
iff no cell holds the empty label, so the failure is unreachable whenever
the configuration contains an empty cell. -/
theorem find_empty_characterization :
    ∀ s : State,
      (find_empty s = none ↔ ∀ row ∈ s, EMPTY ∉ row) ∧
      (∀ i j : Nat, find_empty s = some (i, j) →
        i < s.length ∧ j < (s.getD i []).length ∧ cell s (i, j) = EMPTY ∧
        ∀ p : Point, p.1 < s.length → p.2 < (s.getD p.1 []).length →
          (p.1 < i ∨ (p.1 = i ∧ p.2 < j)) → cell s p ≠ EMPTY) ∧
      (EMPTY ∈ s.flatten → ∃ q, find_empty s = some q) := by
  intro s
  refine ⟨find_empty_none_iff s, ?_, find_empty_isSome_of_mem s⟩
  intro i j h
  obtain ⟨h1, h2, h3, h4, h5⟩ := find_empty_some_spec s i j h
  refine ⟨h1, h2, h3, ?_⟩
  rintro ⟨pi, pj⟩ hp1 hp2 hlt
  rcases hlt with hlt | ⟨rfl, hlt⟩
  · have hrow := h5 pi hlt
    intro hcell
    have hmemrow : (s.getD pi []).getD pj EMPTY ∈ s.getD pi [] := getD_mem _ _ _ hp2
    unfold cell at hcell
    rw [hcell] at hmemrow
    exact hrow hmemrow
  · exact h4 pj hlt

/-- C10 witness: the debug start state's empty cell sits at `(1, 0)`. -/
theorem find_empty_characterization_witness :
    find_empty DEBUG_START_STATE = some (1, 0) ∧
      (1 < DEBUG_START_STATE.length ∧ 0 < (DEBUG_START_STATE.getD 1 []).length ∧
        cell DEBUG_START_STATE (1, 0) = EMPTY ∧
        ∀ p : Point, p.1 < DEBUG_START_STATE.length →
          p.2 < (DEBUG_START_STATE.getD p.1 []).length →
          (p.1 < 1 ∨ (p.1 = 1 ∧ p.2 < 0)) → cell DEBUG_START_STATE p ≠ EMPTY) :=
  ⟨rfl, (find_empty_characterization DEBUG_START_STATE).2.1 1 0 rfl⟩
